import Mathlib

/-!
Verification of the `relicense` template engine
(`src/relicense/templates/__init__.py` and `src/relicense/cli.py`).

The development shallowly embeds the Python code: strings become `String`
(with most work done on `List Char` via `String.data`), the lazily loaded
template cache becomes an `Option String` field, fallible operations return
`Except String`, and the module-level `REMAPPED_LICENSES` mapping becomes an
explicit association-list parameter (its contents and ordering come from a
filesystem glob, which is external data with unspecified order).
-/

namespace Relicense

/-- Models Python `str.isspace` (the character class removed by `str.strip`
and `str.rstrip` with no argument): ASCII whitespace, the C0 separators,
and the Unicode space characters. -/
def isPySpace (c : Char) : Bool :=
  c == ' ' || c == '\t' || c == '\n' || c == '\r' ||
  c == Char.ofNat 0x0b || c == Char.ofNat 0x0c ||
  c == Char.ofNat 0x1c || c == Char.ofNat 0x1d ||
  c == Char.ofNat 0x1e || c == Char.ofNat 0x1f ||
  c == Char.ofNat 0x85 || c == Char.ofNat 0xa0 ||
  c == Char.ofNat 0x1680 ||
  (0x2000 ≤ c.toNat && c.toNat ≤ 0x200a) ||
  c == Char.ofNat 0x2028 || c == Char.ofNat 0x2029 ||
  c == Char.ofNat 0x202f || c == Char.ofNat 0x205f ||
  c == Char.ofNat 0x3000

/-- Models the line-boundary character class of Python `str.splitlines`
(`\n`, `\r`, `\v`, `\f`, the C0 file/group/record separators, NEL, LS, PS;
`\r\n` is handled as a single boundary in `pySplitlines`). -/
def isLineBoundary (c : Char) : Bool :=
  c == '\n' || c == '\r' ||
  c == Char.ofNat 0x0b || c == Char.ofNat 0x0c ||
  c == Char.ofNat 0x1c || c == Char.ofNat 0x1d ||
  c == Char.ofNat 0x1e || c == Char.ofNat 0x85 ||
  c == Char.ofNat 0x2028 || c == Char.ofNat 0x2029

/-- Models Python `str.rstrip()` on a character list: remove trailing
whitespace. -/
def rstripChars (l : List Char) : List Char :=
  (l.reverse.dropWhile isPySpace).reverse

/-- Models Python `str.lstrip()` on a character list: remove leading
whitespace. -/
def lstripChars (l : List Char) : List Char :=
  l.dropWhile isPySpace

/-- Models Python `str.strip()` on a character list: remove leading and
trailing whitespace. -/
def stripChars (l : List Char) : List Char :=
  lstripChars (rstripChars l)

/-- Models Python `str.strip()` on strings. -/
def pyStrip (s : String) : String :=
  String.mk (stripChars s.data)

/-- Helper for `pySplitlines`: `acc` is the current line, reversed. -/
def splitlinesAux : List Char → List Char → List (List Char)
  | '\r' :: '\n' :: rest, acc => acc.reverse :: splitlinesAux rest []
  | c :: rest, acc =>
    if isLineBoundary c then acc.reverse :: splitlinesAux rest []
    else splitlinesAux rest (c :: acc)
  | [], acc => if acc.isEmpty then [] else [acc.reverse]

/-- Models Python `str.splitlines()`: split at line boundaries (with `\r\n`
counting as one boundary); a final segment is kept only when nonempty, and
the empty string yields no lines. -/
def pySplitlines (l : List Char) : List (List Char) :=
  splitlinesAux l []

/-- Models Python `sep.join(pieces)` on character lists. -/
def joinWith (sep : List Char) : List (List Char) → List Char
  | [] => []
  | [x] => x
  | x :: y :: rest => x ++ sep ++ joinWith sep (y :: rest)

example : pySplitlines "a\n\nb".data = ["a".data, "".data, "b".data] := by decide
example : pySplitlines "a\r\nb".data = ["a".data, "b".data] := by decide
example : pySplitlines "\n".data = ["".data] := by decide
example : pySplitlines "".data = [] := by decide
example : pySplitlines "a".data = ["a".data] := by decide
example : rstripChars "  a  ".data = "  a".data := by decide
example : stripChars "  a  ".data = "a".data := by decide

/-- Fuel-based worker for `replaceChars`. The fuel (initially the length of
the subject, one unit per character position scanned) only makes the
recursion structural; `replaceGo_irrel` shows the result does not depend on
it for nonempty patterns and sufficient fuel. -/
def replaceGo (pat val : List Char) : Nat → List Char → List Char
  | _, [] => []
  | 0, l => l
  | fuel + 1, c :: rest =>
    if pat.isPrefixOf (c :: rest) then
      val ++ replaceGo pat val fuel ((c :: rest).drop pat.length)
    else
      c :: replaceGo pat val fuel rest

/-- Models Python `subject.replace(pat, val)` for a nonempty `pat`:
left-to-right scan, replacing each non-overlapping occurrence of `pat` and
never rescanning the substituted `val`. (Python's behaviour for the empty
pattern is different and is never exercised: every call site uses the
pattern `%%name%%`, which has at least four characters.) -/
def replaceChars (pat val l : List Char) : List Char :=
  replaceGo pat val l.length l

/-- Fuel-based worker for `splitChars`. -/
def splitGo (pat : List Char) : Nat → List Char → List (List Char)
  | _, [] => [[]]
  | 0, l => [l]
  | fuel + 1, c :: rest =>
    if pat.isPrefixOf (c :: rest) then
      [] :: splitGo pat fuel ((c :: rest).drop pat.length)
    else
      match splitGo pat fuel rest with
      | [] => [[c]]
      | p :: ps => (c :: p) :: ps

/-- Models Python `subject.split(pat)` for a nonempty `pat`: the list of
fragments between non-overlapping occurrences of `pat`. Used only to state
the standard characterization `replace = join-with-val of split`. -/
def splitChars (pat l : List Char) : List (List Char) :=
  splitGo pat l.length l

theorem replaceGo_irrel (pat val : List Char) (hpat : pat ≠ []) :
    ∀ f1 f2 l, l.length ≤ f1 → l.length ≤ f2 →
      replaceGo pat val f1 l = replaceGo pat val f2 l := by
  intro f1
  induction f1 with
  | zero =>
    intro f2 l h1 _
    have : l = [] := List.eq_nil_of_length_eq_zero (Nat.le_zero.mp h1)
    subst this
    cases f2 <;> rfl
  | succ g1 ih =>
    intro f2 l h1 h2
    cases l with
    | nil => cases f2 <;> rfl
    | cons c rest =>
      cases f2 with
      | zero => simp at h2
      | succ g2 =>
        have hlen : 1 ≤ pat.length := by
          cases pat with
          | nil => exact absurd rfl hpat
          | cons a b => simp
        simp only [List.length_cons] at h1 h2
        simp only [replaceGo]
        by_cases hp : pat.isPrefixOf (c :: rest)
        · rw [if_pos hp, if_pos hp]
          have hdrop : ((c :: rest).drop pat.length).length ≤ g1 := by
            simp only [List.length_drop, List.length_cons]
            omega
          have hdrop2 : ((c :: rest).drop pat.length).length ≤ g2 := by
            simp only [List.length_drop, List.length_cons]
            omega
          rw [ih g2 _ hdrop hdrop2]
        · rw [if_neg hp, if_neg hp]
          have hr1 : rest.length ≤ g1 := by omega
          have hr2 : rest.length ≤ g2 := by omega
          rw [ih g2 _ hr1 hr2]

theorem splitGo_irrel (pat : List Char) (hpat : pat ≠ []) :
    ∀ f1 f2 l, l.length ≤ f1 → l.length ≤ f2 →
      splitGo pat f1 l = splitGo pat f2 l := by
  intro f1
  induction f1 with
  | zero =>
    intro f2 l h1 _
    have : l = [] := List.eq_nil_of_length_eq_zero (Nat.le_zero.mp h1)
    subst this
    cases f2 <;> rfl
  | succ g1 ih =>
    intro f2 l h1 h2
    cases l with
    | nil => cases f2 <;> rfl
    | cons c rest =>
      cases f2 with
      | zero => simp at h2
      | succ g2 =>
        have hlen : 1 ≤ pat.length := by
          cases pat with
          | nil => exact absurd rfl hpat
          | cons a b => simp
        simp only [List.length_cons] at h1 h2
        simp only [splitGo]
        by_cases hp : pat.isPrefixOf (c :: rest)
        · rw [if_pos hp, if_pos hp]
          have hdrop : ((c :: rest).drop pat.length).length ≤ g1 := by
            simp only [List.length_drop, List.length_cons]
            omega
          have hdrop2 : ((c :: rest).drop pat.length).length ≤ g2 := by
            simp only [List.length_drop, List.length_cons]
            omega
          rw [ih g2 _ hdrop hdrop2]
        · rw [if_neg hp, if_neg hp]
          have hr1 : rest.length ≤ g1 := by omega
          have hr2 : rest.length ≤ g2 := by omega
          rw [ih g2 _ hr1 hr2]

theorem replaceChars_nil (pat val : List Char) : replaceChars pat val [] = [] := rfl

theorem replaceChars_cons (pat val : List Char) (hpat : pat ≠ []) (c : Char)
    (rest : List Char) :
    replaceChars pat val (c :: rest) =
      if pat.isPrefixOf (c :: rest) then
        val ++ replaceChars pat val ((c :: rest).drop pat.length)
      else
        c :: replaceChars pat val rest := by
  have hlen : 1 ≤ pat.length := by
    cases pat with
    | nil => exact absurd rfl hpat
    | cons a b => simp
  show replaceGo pat val (rest.length + 1) (c :: rest) = _
  simp only [replaceGo]
  by_cases hp : pat.isPrefixOf (c :: rest)
  · simp only [hp, if_true]
    rw [replaceGo_irrel pat val hpat rest.length ((c :: rest).drop pat.length).length
      ((c :: rest).drop pat.length)]
    · rfl
    · simp only [List.length_drop, List.length_cons]; omega
    · exact Nat.le_refl _
  · simp only [hp, if_false]
    rfl

theorem splitChars_nil (pat : List Char) : splitChars pat [] = [[]] := rfl

theorem splitChars_cons (pat : List Char) (hpat : pat ≠ []) (c : Char)
    (rest : List Char) :
    splitChars pat (c :: rest) =
      if pat.isPrefixOf (c :: rest) then
        [] :: splitChars pat ((c :: rest).drop pat.length)
      else
        match splitChars pat rest with
        | [] => [[c]]
        | p :: ps => (c :: p) :: ps := by
  have hlen : 1 ≤ pat.length := by
    cases pat with
    | nil => exact absurd rfl hpat
    | cons a b => simp
  show splitGo pat (rest.length + 1) (c :: rest) = _
  simp only [splitGo]
  by_cases hp : pat.isPrefixOf (c :: rest)
  · simp only [hp, if_true]
    rw [splitGo_irrel pat hpat rest.length ((c :: rest).drop pat.length).length
      ((c :: rest).drop pat.length)]
    · rfl
    · simp only [List.length_drop, List.length_cons]; omega
    · exact Nat.le_refl _
  · simp only [hp, if_false]
    rfl

example : replaceChars "%%Y%%".data "25".data "a %%Y%% b %%Y%%".data = "a 25 b 25".data := by
  decide

example : splitChars "b".data "abc".data = ["a".data, "c".data] := by decide

theorem splitChars_ne_nil (pat : List Char) (hpat : pat ≠ []) (l : List Char) :
    splitChars pat l ≠ [] := by
  cases l with
  | nil => rw [splitChars_nil]; simp
  | cons c rest =>
    rw [splitChars_cons pat hpat]
    by_cases hp : pat.isPrefixOf (c :: rest)
    · rw [if_pos hp]; simp
    · rw [if_neg hp]
      cases splitChars pat rest <;> simp

theorem joinWith_cons_head (sep : List Char) (c : Char) (p : List Char)
    (ps : List (List Char)) :
    joinWith sep ((c :: p) :: ps) = c :: joinWith sep (p :: ps) := by
  cases ps with
  | nil => rfl
  | cons r rs => simp [joinWith]

/-- Python's documented equivalence: `s.replace(pat, val)` is
`val.join(s.split(pat))` for a nonempty `pat`. This is the sense in which
`replace` substitutes every non-overlapping occurrence of the exact
substring `pat` and never rescans the substituted `val` within the call. -/
theorem replaceChars_eq_joinWith_splitChars (pat val : List Char) (hpat : pat ≠ []) :
    ∀ l : List Char, replaceChars pat val l = joinWith val (splitChars pat l) := by
  have hlen : 1 ≤ pat.length := by
    cases pat with
    | nil => exact absurd rfl hpat
    | cons a b => simp
  have H : ∀ n (l : List Char), l.length ≤ n →
      replaceChars pat val l = joinWith val (splitChars pat l) := by
    intro n
    induction n with
    | zero =>
      intro l h
      have : l = [] := List.eq_nil_of_length_eq_zero (Nat.le_zero.mp h)
      subst this
      rfl
    | succ m ih =>
      intro l h
      cases l with
      | nil => rfl
      | cons c rest =>
        simp only [List.length_cons] at h
        rw [replaceChars_cons pat val hpat, splitChars_cons pat hpat]
        by_cases hp : pat.isPrefixOf (c :: rest)
        · rw [if_pos hp, if_pos hp]
          have hdrop : ((c :: rest).drop pat.length).length ≤ m := by
            simp only [List.length_drop, List.length_cons]
            omega
          obtain ⟨q, qs, hq⟩ :
              ∃ q qs, splitChars pat ((c :: rest).drop pat.length) = q :: qs := by
            cases hsp : splitChars pat ((c :: rest).drop pat.length) with
            | nil => exact absurd hsp (splitChars_ne_nil pat hpat _)
            | cons q qs => exact ⟨q, qs, rfl⟩
          rw [ih _ hdrop, hq]
          simp [joinWith]
        · rw [if_neg hp, if_neg hp]
          have hrest : rest.length ≤ m := by omega
          cases hsp : splitChars pat rest with
          | nil => exact absurd hsp (splitChars_ne_nil pat hpat rest)
          | cons p ps =>
            rw [joinWith_cons_head, ← hsp, ← ih rest hrest]
  intro l
  exact H l.length l (Nat.le_refl _)

theorem infix_of_infix_cons_not_pre (pat : List Char) (c : Char) (rest : List Char)
    (h : pat <:+: (c :: rest)) (hp : ¬ pat.isPrefixOf (c :: rest)) :
    pat <:+: rest := by
  obtain ⟨s, t, hst⟩ := h
  cases s with
  | nil =>
    exfalso
    apply hp
    rw [ List.isPrefixOf_iff_prefix]
    exact ⟨t, by simpa using hst⟩
  | cons a s1 =>
    have h2 : s1 ++ pat ++ t = rest := by
      have := hst
      simp only [List.cons_append, List.cons.injEq] at this
      exact this.2
    exact ⟨s1, t, h2⟩

/-- If the pattern does not occur as a substring, `replace` is the identity
(the documented silent no-op). -/
theorem replaceChars_no_occurrence (pat val : List Char) (hpat : pat ≠ []) :
    ∀ l : List Char, ¬ pat <:+: l → replaceChars pat val l = l := by
  have H : ∀ n (l : List Char), l.length ≤ n → ¬ pat <:+: l →
      replaceChars pat val l = l := by
    intro n
    induction n with
    | zero =>
      intro l h _
      have : l = [] := List.eq_nil_of_length_eq_zero (Nat.le_zero.mp h)
      subst this
      rfl
    | succ m ih =>
      intro l h hinf
      cases l with
      | nil => rfl
      | cons c rest =>
        simp only [List.length_cons] at h
        rw [replaceChars_cons pat val hpat]
        by_cases hp : pat.isPrefixOf (c :: rest)
        · exfalso
          apply hinf
          obtain ⟨t, ht⟩ := List.isPrefixOf_iff_prefix.mp hp
          exact ⟨[], t, by simpa using ht⟩
        · rw [if_neg hp]
          have hrest : ¬ pat <:+: rest := fun hr => hinf (List.infix_cons hr)
          rw [ih rest (by omega) hrest]
  intro l hinf
  exact H l.length l (Nat.le_refl _) hinf

/-- If the pattern occurs in the subject, the substituted value occurs
(as a contiguous substring) in the result of `replace`. -/
theorem infix_val_replaceChars (pat val : List Char) (hpat : pat ≠ []) :
    ∀ l : List Char, pat <:+: l → val <:+: replaceChars pat val l := by
  have H : ∀ n (l : List Char), l.length ≤ n → pat <:+: l →
      val <:+: replaceChars pat val l := by
    intro n
    induction n with
    | zero =>
      intro l h hinf
      have : l = [] := List.eq_nil_of_length_eq_zero (Nat.le_zero.mp h)
      subst this
      obtain ⟨s, t, hst⟩ := hinf
      exfalso
      apply hpat
      cases List.append_eq_nil.mp (List.append_eq_nil.mp hst).1 with
      | intro h1 h2 => exact h2
    | succ m ih =>
      intro l h hinf
      cases l with
      | nil =>
        obtain ⟨s, t, hst⟩ := hinf
        exfalso
        apply hpat
        cases List.append_eq_nil.mp (List.append_eq_nil.mp hst).1 with
        | intro h1 h2 => exact h2
      | cons c rest =>
        simp only [List.length_cons] at h
        rw [replaceChars_cons pat val hpat]
        by_cases hp : pat.isPrefixOf (c :: rest)
        · rw [if_pos hp]
          exact ⟨[], replaceChars pat val ((c :: rest).drop pat.length), by simp⟩
        · rw [if_neg hp]
          have hrest : pat <:+: rest := infix_of_infix_cons_not_pre pat c rest hinf hp
          exact List.infix_cons (ih rest (by omega) hrest)
  intro l
  exact H l.length l (Nat.le_refl _)

/-- Models the attempt of the non-greedy regex `%%(.*?)%%` to complete a
match that has just consumed an opening `%%`: scan for the earliest closing
`%%`; the characters in between form the captured name and may be anything
except a newline (Python `re`, where `.` does not match `\n`). Returns the
captured name and the remainder after the closing `%%`, or `none` when no
closing `%%` occurs before a newline or the end of input. -/
def findClose : List Char → Option (List Char × List Char)
  | [] => none
  | [_] => none
  | c1 :: c2 :: rest =>
    if c1 = '%' ∧ c2 = '%' then some ([], rest)
    else if c1 = '\n' then none
    else (findClose (c2 :: rest)).map (fun p => (c1 :: p.1, p.2))

/-- Fuel-based worker for `pyFindAll` (fuel only makes the recursion
structural; see `findAllGo_irrel`). -/
def findAllGo : Nat → List Char → List (List Char)
  | _, [] => []
  | _, [_] => []
  | 0, _ => []
  | fuel + 1, c1 :: c2 :: rest =>
    if c1 = '%' ∧ c2 = '%' then
      match findClose rest with
      | some (name, rest1) => name :: findAllGo fuel rest1
      | none => findAllGo fuel (c2 :: rest)
    else findAllGo fuel (c2 :: rest)

/-- Models Python `re.findall(r"%%(.*?)%%", subject)`: scan left to right;
at each position try to match an opening `%%`, the earliest closing `%%`
(non-greedy), and capture the characters in between, which cannot include a
newline; matches do not overlap and scanning resumes after each match. -/
def pyFindAll (l : List Char) : List (List Char) :=
  findAllGo l.length l

theorem findClose_length (l : List Char) :
    ∀ name rest1, findClose l = some (name, rest1) →
      name.length + rest1.length + 2 = l.length := by
  induction l with
  | nil => intro name rest1 h; simp [findClose] at h
  | cons c1 t ihl =>
    cases t with
    | nil => intro name rest1 h; simp [findClose] at h
    | cons c2 rest =>
      intro name rest1 h
      simp only [findClose] at h
      by_cases h12 : c1 = '%' ∧ c2 = '%'
      · rw [if_pos h12] at h
        cases h
        simp
      · rw [if_neg h12] at h
        by_cases hn : c1 = '\n'
        · rw [if_pos hn] at h
          exact absurd h (by simp)
        · rw [if_neg hn] at h
          cases hrec : findClose (c2 :: rest) with
          | none => rw [hrec] at h; exact absurd h (by simp)
          | some p =>
            rw [hrec] at h
            obtain ⟨n0, r0⟩ := p
            simp at h
            have := ihl n0 r0 hrec
            obtain ⟨h1, h2⟩ := h
            subst h1; subst h2
            simp only [List.length_cons] at this ⊢
            omega

theorem findAllGo_irrel :
    ∀ f1 f2 l, l.length ≤ f1 → l.length ≤ f2 →
      findAllGo f1 l = findAllGo f2 l := by
  intro f1
  induction f1 with
  | zero =>
    intro f2 l h1 _
    have : l = [] := List.eq_nil_of_length_eq_zero (Nat.le_zero.mp h1)
    subst this
    cases f2 <;> rfl
  | succ g1 ih =>
    intro f2 l h1 h2
    match l with
    | [] => cases f2 <;> rfl
    | [c] =>
      cases f2 with
      | zero => simp at h2
      | succ g2 => rfl
    | c1 :: c2 :: rest =>
      cases f2 with
      | zero => simp at h2
      | succ g2 =>
        simp only [List.length_cons] at h1 h2
        simp only [findAllGo]
        by_cases h12 : c1 = '%' ∧ c2 = '%'
        · rw [if_pos h12, if_pos h12]
          cases hrec : findClose rest with
          | none =>
            have : rest.length + 1 ≤ g1 := by omega
            rw [ih g2 (c2 :: rest) (by simpa using this) (by simp; omega)]
          | some p =>
            obtain ⟨name, rest1⟩ := p
            have hlen := findClose_length rest name rest1 hrec
            have hr1 : rest1.length ≤ g1 := by omega
            have hr2 : rest1.length ≤ g2 := by omega
            dsimp only
            rw [ih g2 rest1 hr1 hr2]
        · rw [if_neg h12, if_neg h12]
          rw [ih g2 (c2 :: rest) (by simp; omega) (by simp; omega)]

theorem pyFindAll_nil : pyFindAll [] = [] := rfl

theorem pyFindAll_single (c : Char) : pyFindAll [c] = [] := rfl

theorem pyFindAll_cons2 (c1 c2 : Char) (rest : List Char) :
    pyFindAll (c1 :: c2 :: rest) =
      if c1 = '%' ∧ c2 = '%' then
        match findClose rest with
        | some (name, rest1) => name :: pyFindAll rest1
        | none => pyFindAll (c2 :: rest)
      else pyFindAll (c2 :: rest) := by
  show findAllGo (rest.length + 1 + 1) (c1 :: c2 :: rest) = _
  simp only [findAllGo]
  by_cases h12 : c1 = '%' ∧ c2 = '%'
  · rw [if_pos h12, if_pos h12]
    cases hrec : findClose rest with
    | none =>
      rw [findAllGo_irrel (rest.length + 1) (c2 :: rest).length (c2 :: rest) (by simp) (by simp)]
      rfl
    | some p =>
      obtain ⟨name, rest1⟩ := p
      have hlen := findClose_length rest name rest1 hrec
      dsimp only
      rw [findAllGo_irrel (rest.length + 1) rest1.length rest1 (by omega) (by omega)]
      rfl
  · rw [if_neg h12, if_neg h12]
    rw [findAllGo_irrel (rest.length + 1) (c2 :: rest).length (c2 :: rest) (by simp) (by simp)]
    rfl

example : pyFindAll "Copyright %%YEAR%% by %%AUTHOR%%".data = ["YEAR".data, "AUTHOR".data] := by
  decide
example : pyFindAll "%%A\nB%%".data = [] := by decide
example : pyFindAll "%%%%%".data = [[]] := by decide
example : pyFindAll "%%%A%%".data = ["%A".data] := by decide
example : pyFindAll "%%A%%B%%".data = ["A".data] := by decide
example : pyFindAll "no markers".data = [] := by decide
example : pyFindAll "%%%%A%%".data = [[]] := by decide
example : pyFindAll "%%A\rB%%".data = ["A\rB".data] := by decide
example : pyFindAll "%% YEAR %%".data = [" YEAR ".data] := by decide

/-- Models the accumulation loop of `License.extract_template`:
`for match in matched: match = match.strip(); if match and match not in
variables: variables.add(match)`. The Python `set` is modelled as the list
of so-far-added names (insertion order is irrelevant: the result is sorted
afterwards). -/
def buildVars : List (List Char) → List String → List String
  | [], acc => acc
  | m :: ms, acc =>
    let m1 := String.mk (stripChars m)
    if m1 ≠ "" ∧ m1 ∉ acc then buildVars ms (acc ++ [m1]) else buildVars ms acc

/-- Boolean lexicographic comparison of character lists (by code point),
the order Python `sorted` uses on strings. `strLe_iff_le` shows it agrees
with Lean's `≤` on `String`. -/
def charListLe : List Char → List Char → Bool
  | [], _ => true
  | _ :: _, [] => false
  | a :: as, b :: bs =>
    if a < b then true
    else if b < a then false
    else charListLe as bs

/-- Boolean lexicographic comparison on strings. -/
def strLe (a b : String) : Bool :=
  charListLe a.data b.data

/-- Models Python `sorted` on a list of strings: a stable sort by the
lexicographic (code-point) order. -/
def sortStrings (l : List String) : List String :=
  List.insertionSort (fun a b => strLe a b = true) l

theorem charListLe_iff : ∀ x y : List Char, charListLe x y = true ↔ ¬ List.lt y x := by
  intro x
  induction x with
  | nil =>
    intro y
    simp only [charListLe]
    exact iff_of_true trivial (fun h => nomatch h)
  | cons a as ih =>
    intro y
    cases y with
    | nil =>
      simp only [charListLe]
      constructor
      · intro h; exact absurd h (by simp)
      · intro h; exact absurd (List.lt.nil a as) h
    | cons b bs =>
      simp only [charListLe]
      rcases lt_trichotomy a b with hab | hab | hab
      · rw [if_pos hab]
        constructor
        · intro _ h
          cases h with
          | head _ _ h1 => exact absurd hab (lt_asymm h1)
          | tail h1 h2 h3 => exact h2 hab
        · intro _; rfl
      · subst hab
        rw [if_neg (lt_irrefl a), if_neg (lt_irrefl a)]
        rw [ih bs]
        constructor
        · intro h hlt
          cases hlt with
          | head _ _ h1 => exact absurd h1 (lt_irrefl a)
          | tail h1 h2 h3 => exact h h3
        · intro h hlt
          exact h (List.lt.tail (lt_irrefl a) (lt_irrefl a) hlt)
      · rw [if_neg (lt_asymm hab), if_pos hab]
        constructor
        · intro h; exact absurd h (by simp)
        · intro h; exact absurd (List.lt.head bs as hab) h

theorem strLe_iff_le (a b : String) : strLe a b = true ↔ a ≤ b := by
  rw [String.le_iff_toList_le]
  have h3 : b.toList < a.toList ↔ List.lt b.data a.data := by
    rw [List.lt_iff_lex_lt b.data a.data]
    exact Iff.rfl
  calc strLe a b = true
      ↔ ¬ List.lt b.data a.data := charListLe_iff a.data b.data
    _ ↔ ¬ (b.toList < a.toList) := not_congr h3.symm
    _ ↔ a.toList ≤ b.toList := not_lt (a := b.toList) (b := a.toList)

/-- The pure extraction underlying `License.extract_template` (lines 88-98
of `templates/__init__.py`): find all `%%(.*?)%%` captures, return `[]`
when there are none; otherwise strip each capture, drop empties, dedupe,
and sort. -/
def extractVars (t : String) : List String :=
  let matched := pyFindAll t.data
  if matched = [] then []
  else sortStrings (buildVars matched [])

example : extractVars "Copyright (c) %%YEAR%% %%AUTHOR%%, %%YEAR%%" = ["AUTHOR", "YEAR"] := by
  decide
example : extractVars "%% YEAR %%" = ["YEAR"] := by decide
example : extractVars "plain text" = [] := by decide

/-- The glob-built module mapping `REMAPPED_LICENSES`, modelled as an
association list from identifier (file stem) to the template file's text.
Its contents and order come from `CURRENT_DIR.glob("*.template")`, i.e.
external data enumerated in unspecified (not sorted) order, so it is a
parameter of every operation. -/
def Store := List (String × String)

/-- Models `ALL_LICENSES = list(REMAPPED_LICENSES.keys())`: the identifiers
in store (glob) order. -/
def allLicenses (store : Store) : List String :=
  store.map Prod.fst

/-- First-match association-list lookup, modelling the `dict` access
`REMAPPED_LICENSES[name]` (keys are unique in a `dict`). -/
def storeLookup : Store → String → Option String
  | [], _ => none
  | (k, v) :: rest, name => if k = name then some v else storeLookup rest name

/-- Models `read_template` (lines 32-43): membership check raising
`ValueError` for unknown names, then the file read, which yields the
stored text. -/
def readTemplate (store : Store) (name : String) : Except String String :=
  match storeLookup store name with
  | none => Except.error ("License template '" ++ name ++ "' not found.")
  | some t => Except.ok t

theorem storeLookup_eq_none_iff (store : Store) (name : String) :
    storeLookup store name = none ↔ name ∉ allLicenses store := by
  induction store with
  | nil => simp [storeLookup, allLicenses]
  | cons p rest ih =>
    obtain ⟨k, v⟩ := p
    by_cases hk : k = name
    · subst hk
      simp [storeLookup, allLicenses]
    · simp [storeLookup, hk, allLicenses] at ih ⊢
      rw [ih]
      tauto

/-- Models the `License` class state: the immutable `spdx` field and the
lazily populated `_template` cache. The extra `loads` field is
instrumentation (the spec's "Store stub that counts load calls"): it counts
how many times the backing `read_template` has been invoked for this
instance and plays no role in any behaviour. -/
structure License where
  spdx : String
  template : Option String
  loads : Nat
deriving DecidableEq

deriving instance DecidableEq for Except

/-- Models `License.__init__` (lines 47-49): stores the identifier and the
empty cache. Note it performs no validation of any kind. -/
def License.init (spdx : String) : License :=
  { spdx := spdx, template := none, loads := 0 }

/-- Models the shared lazy-load pattern (`if self._template is None:
self._template = self.read()` / the body of `read`): return the cached
text, loading it from the store exactly when the cache is empty. -/
def License.ensureLoaded (store : Store) (l : License) :
    Except String (String × License) :=
  match l.template with
  | some t => Except.ok (t, l)
  | none =>
    match readTemplate store l.spdx with
    | Except.error e => Except.error e
    | Except.ok t =>
      Except.ok (t, { spdx := l.spdx, template := some t, loads := l.loads + 1 })

/-- Models `License.read` (lines 57-61). -/
def License.read (store : Store) (l : License) : Except String (String × License) :=
  License.ensureLoaded store l

/-- Models `License.apply_variable` (lines 63-67): ensure the template is
loaded, then `self._template = self._template.replace(f"%%{variable}%%",
value)`. -/
def License.applyVariable (store : Store) (l : License) (name value : String) :
    Except String License :=
  match License.ensureLoaded store l with
  | Except.error e => Except.error e
  | Except.ok (t, l1) =>
    Except.ok { spdx := l1.spdx, loads := l1.loads,
                template := some (String.mk (replaceChars ("%%" ++ name ++ "%%").data value.data t.data)) }

/-- The normalization pipeline of `License.get_result` (lines 73-79):
`splitlines`, `rstrip` each line, join with `"\n"`, `rstrip` the whole. -/
def normalizeResult (t : String) : String :=
  String.mk (rstripChars (joinWith ['\n'] ((pySplitlines t.data).map rstripChars)))

/-- Models `License.get_result` (lines 69-79): ensure the template is
loaded, then normalize it (the cache keeps the un-normalized text). -/
def License.getResult (store : Store) (l : License) :
    Except String (String × License) :=
  match License.ensureLoaded store l with
  | Except.error e => Except.error e
  | Except.ok (t, l1) => Except.ok (normalizeResult t, l1)

/-- Models `License.extract_template` (lines 81-98): `read`, then regex
findall, strip/filter/dedupe, and sort. -/
def License.extractTemplate (store : Store) (l : License) :
    Except String (List String × License) :=
  match License.read store l with
  | Except.error e => Except.error e
  | Except.ok (t, l1) => Except.ok (extractVars t, l1)

/-- Models the Python marker text `f"%%{variable}%%"`. -/
def marker (name : String) : String := "%%" ++ name ++ "%%"

/-- `pat` occurs as a contiguous substring of `s`. -/
def occursIn (s pat : String) : Prop := pat.data <:+: s.data

instance (s pat : String) : Decidable (occursIn s pat) :=
  List.decidableInfix pat.data s.data

/-- Models `", ".join(items)`. -/
def joinComma : List String → String
  | [] => ""
  | [x] => x
  | x :: y :: rest => x ++ ", " ++ joinComma (y :: rest)

/-- The possible runtime types of the `value` argument of
`LicenseParameter.convert` (`cli.py` lines 42-51): a string, an existing
`License` object, or anything else (represented by its type name). -/
inductive ConvertInput where
  | str (s : String)
  | lic (l : License)
  | other (typeName : String)

/-- Models `LicenseParameter.convert` (`cli.py` lines 42-51): a string is
accepted iff it is in `ALL_LICENSES` (`self.fail` raises a click usage
error, modelled as `Except.error` carrying the message); a `License`
passes through; anything else fails. -/
def convert (store : Store) (value : ConvertInput) : Except String License :=
  match value with
  | ConvertInput.str s =>
    if s ∉ allLicenses store then
      Except.error ("Invalid license: " ++ s ++ ". Available licenses: " ++
        joinComma (allLicenses store))
    else
      Except.ok (License.init s)
  | ConvertInput.lic l => Except.ok l
  | ConvertInput.other typeName =>
    Except.error ("Expected a string or License object, got " ++ typeName)

theorem sortStrings_sorted (l : List String) :
    List.Sorted (fun a b : String => a ≤ b) (sortStrings l) := by
  haveI inst1 : IsTotal String (fun a b => strLe a b = true) := ⟨by
    intro a b
    rcases le_total a b with h | h
    · exact Or.inl ((strLe_iff_le a b).mpr h)
    · exact Or.inr ((strLe_iff_le b a).mpr h)⟩
  haveI inst2 : IsTrans String (fun a b => strLe a b = true) := ⟨by
    intro a b c hab hbc
    exact (strLe_iff_le a c).mpr
      (le_trans ((strLe_iff_le a b).mp hab) ((strLe_iff_le b c).mp hbc))⟩
  have h := List.sorted_insertionSort (fun a b => strLe a b = true) l
  exact h.imp (fun hab => (strLe_iff_le _ _).mp hab)

theorem sortStrings_perm (l : List String) : List.Perm (sortStrings l) l :=
  List.perm_insertionSort _ l

theorem mem_sortStrings (a : String) (l : List String) :
    a ∈ sortStrings l ↔ a ∈ l :=
  (sortStrings_perm l).mem_iff

theorem buildVars_nodup : ∀ (ms : List (List Char)) (acc : List String),
    acc.Nodup → (buildVars ms acc).Nodup := by
  intro ms
  induction ms with
  | nil => intro acc h; exact h
  | cons m ms ih =>
    intro acc h
    simp only [buildVars]
    by_cases hc : String.mk (stripChars m) ≠ "" ∧ String.mk (stripChars m) ∉ acc
    · rw [if_pos hc]
      apply ih
      rw [List.nodup_append]
      exact ⟨h, List.nodup_singleton _, by simpa using hc.2⟩
    · rw [if_neg hc]
      exact ih acc h

theorem mem_buildVars : ∀ (ms : List (List Char)) (acc : List String) (x : String),
    x ∈ buildVars ms acc ↔
      x ∈ acc ∨ ∃ m ∈ ms, x = String.mk (stripChars m) ∧ x ≠ "" := by
  intro ms
  induction ms with
  | nil => intro acc x; simp [buildVars]
  | cons m ms ih =>
    intro acc x
    simp only [buildVars]
    by_cases hc : String.mk (stripChars m) ≠ "" ∧ String.mk (stripChars m) ∉ acc
    · rw [if_pos hc, ih]
      simp only [List.mem_append, List.mem_cons, List.not_mem_nil, or_false]
      constructor
      · rintro ((hx | hx) | ⟨m1, hm1, hx⟩)
        · exact Or.inl hx
        · exact Or.inr ⟨m, Or.inl rfl, hx, hx ▸ hc.1⟩
        · exact Or.inr ⟨m1, Or.inr hm1, hx⟩
      · rintro (hx | ⟨m1, (hm1 | hm1), hx⟩)
        · exact Or.inl (Or.inl hx)
        · exact Or.inl (Or.inr (hm1 ▸ hx.1))
        · exact Or.inr ⟨m1, hm1, hx⟩
    · rw [if_neg hc, ih]
      push_neg at hc
      constructor
      · rintro (hx | ⟨m1, hm1, hx⟩)
        · exact Or.inl hx
        · exact Or.inr ⟨m1, List.mem_cons_of_mem m hm1, hx⟩
      · rintro (hx | ⟨m1, hm1, hx, hne⟩)
        · exact Or.inl hx
        · rcases List.mem_cons.mp hm1 with hm | hm
          · subst hm
            subst hx
            exact Or.inl (hc (by exact hne))
          · exact Or.inr ⟨m1, hm, hx, hne⟩

theorem dropWhile_idem (p : Char → Bool) :
    ∀ l : List Char, (l.dropWhile p).dropWhile p = l.dropWhile p := by
  intro l
  induction l with
  | nil => rfl
  | cons c rest ih =>
    by_cases hc : p c
    · rw [List.dropWhile_cons_of_pos hc, ih]
    · rw [List.dropWhile_cons_of_neg hc, List.dropWhile_cons_of_neg hc]

theorem dropWhile_eq_self_of_pre (p : Char → Bool) (x z : List Char)
    (hx : x <+: z) (hz : z.dropWhile p = z) : x.dropWhile p = x := by
  cases x with
  | nil => rfl
  | cons c x1 =>
    cases z with
    | nil => exact absurd (List.eq_nil_of_prefix_nil hx) (by simp)
    | cons d z1 =>
      have hcd : c = d := by
        obtain ⟨t, ht⟩ := hx
        simp only [List.cons_append, List.cons.injEq] at ht
        exact ht.1
      subst hcd
      by_cases hc : p c
      · exfalso
        rw [List.dropWhile_cons_of_pos hc] at hz
        have : (z1.dropWhile p).length ≤ z1.length := (List.dropWhile_sublist p).length_le
        have h2 := congrArg List.length hz
        simp only [List.length_cons] at h2
        omega
      · rw [List.dropWhile_cons_of_neg hc]

theorem lstrip_idem (l : List Char) :
    lstripChars (lstripChars l) = lstripChars l :=
  dropWhile_idem isPySpace l

theorem rstrip_idem (l : List Char) :
    rstripChars (rstripChars l) = rstripChars l := by
  simp only [rstripChars, List.reverse_reverse]
  rw [dropWhile_idem]

theorem rstrip_eq_self (y : List Char)
    (h : y.reverse.dropWhile isPySpace = y.reverse) : rstripChars y = y := by
  simp only [rstripChars]
  rw [h, List.reverse_reverse]

theorem rstrip_lstrip_rstrip (l : List Char) :
    rstripChars (lstripChars (rstripChars l)) = lstripChars (rstripChars l) := by
  have hy : (rstripChars l).dropWhile isPySpace <:+ rstripChars l :=
    List.dropWhile_suffix isPySpace
  have hy2 : ((rstripChars l).reverse).dropWhile isPySpace = (rstripChars l).reverse := by
    simp only [rstripChars, List.reverse_reverse]
    rw [dropWhile_idem]
  have hpre : (lstripChars (rstripChars l)).reverse <+: (rstripChars l).reverse :=
    List.reverse_prefix.mpr hy
  have h3 := dropWhile_eq_self_of_pre isPySpace
    (lstripChars (rstripChars l)).reverse (rstripChars l).reverse hpre hy2
  exact rstrip_eq_self _ h3

theorem stripChars_idem (l : List Char) :
    stripChars (stripChars l) = stripChars l := by
  simp only [stripChars]
  rw [rstrip_lstrip_rstrip, lstrip_idem]

theorem findClose_marker (n : List Char) (rest : List Char)
    (hn : ∀ c ∈ n, c ≠ '%' ∧ c ≠ '\n') :
    findClose (n ++ '%' :: '%' :: rest) = some (n, rest) := by
  induction n with
  | nil => simp [findClose]
  | cons c n1 ih =>
    have hc := hn c (List.mem_cons_self c n1)
    have hn1 : ∀ d ∈ n1, d ≠ '%' ∧ d ≠ '\n' :=
      fun d hd => hn d (List.mem_cons_of_mem c hd)
    cases n1 with
    | nil =>
      simp only [List.nil_append, List.cons_append, findClose]
      rw [if_neg (by simp [hc.1]), if_neg hc.2]
      simp [findClose]
    | cons d n2 =>
      have hih := ih hn1
      simp only [List.cons_append] at hih ⊢
      simp only [findClose]
      rw [if_neg (by simp [hc.1]), if_neg hc.2]
      rw [hih]
      rfl

theorem findAll_marker_step (n : List Char) (rest : List Char)
    (hn : ∀ c ∈ n, c ≠ '%' ∧ c ≠ '\n') :
    pyFindAll ('%' :: '%' :: (n ++ '%' :: '%' :: rest)) = n :: pyFindAll rest := by
  rw [pyFindAll_cons2]
  rw [if_pos ⟨rfl, rfl⟩, findClose_marker n rest hn]

theorem pyFindAll_append_lit (s : List Char) (r : List Char)
    (hs : ∀ c ∈ s, c ≠ '%') : pyFindAll (s ++ r) = pyFindAll r := by
  induction s with
  | nil => rfl
  | cons c s1 ih =>
    have hc := hs c (List.mem_cons_self c s1)
    have hs1 : ∀ d ∈ s1, d ≠ '%' := fun d hd => hs d (List.mem_cons_of_mem c hd)
    cases hsr : s1 ++ r with
    | nil =>
      obtain ⟨h1, h2⟩ := List.append_eq_nil.mp hsr
      subst h1
      subst h2
      rfl
    | cons d t =>
      have : pyFindAll (c :: s1 ++ r) = pyFindAll (s1 ++ r) := by
        simp only [List.cons_append, hsr, pyFindAll_cons2]
        rw [if_neg (by simp [hc])]
      rw [this, ih hs1]

/-- Templates of the natural well-formed shape: literal segments containing
no percent character, interleaved with markers whose names contain neither
a percent nor a newline. Relative to such a template the regex scan is
complete: `pyFindAll_of_markerForm`. -/
inductive MarkerForm : List Char → List (List Char) → Prop where
  | lit (s : List Char) (hs : ∀ c ∈ s, c ≠ '%') : MarkerForm s []
  | seg (s n rest : List Char) (ns : List (List Char)) (hs : ∀ c ∈ s, c ≠ '%')
      (hn : ∀ c ∈ n, c ≠ '%' ∧ c ≠ '\n') (hrest : MarkerForm rest ns) :
      MarkerForm (s ++ '%' :: '%' :: (n ++ '%' :: '%' :: rest)) (n :: ns)

theorem pyFindAll_of_markerForm (t : List Char) (ns : List (List Char))
    (h : MarkerForm t ns) : pyFindAll t = ns := by
  induction h with
  | lit s hs =>
    have h1 := pyFindAll_append_lit s [] hs
    simpa using h1
  | seg s n rest ns hs hn hrest ih =>
    rw [pyFindAll_append_lit s _ hs, findAll_marker_step n rest hn, ih]

theorem pyFindAll_eq_nil_of_no_pp :
    ∀ l : List Char, ¬ (['%', '%'] <:+: l) → pyFindAll l = [] := by
  have H : ∀ (k : Nat) (l : List Char), l.length ≤ k → ¬ (['%', '%'] <:+: l) →
      pyFindAll l = [] := by
    intro k
    induction k with
    | zero =>
      intro l h _
      have : l = [] := List.eq_nil_of_length_eq_zero (Nat.le_zero.mp h)
      subst this
      rfl
    | succ m ih =>
      intro l h hinf
      match l with
      | [] => rfl
      | [c] => rfl
      | c1 :: c2 :: rest =>
        simp only [List.length_cons] at h
        rw [pyFindAll_cons2]
        have h12 : ¬ (c1 = '%' ∧ c2 = '%') := by
          rintro ⟨h1, h2⟩
          subst h1
          subst h2
          exact hinf ⟨[], rest, rfl⟩
        rw [if_neg h12]
        have : ¬ (['%', '%'] <:+: (c2 :: rest)) := fun hr => hinf (List.infix_cons hr)
        exact ih (c2 :: rest) (by simp; omega) this
  intro l
  exact H l.length l (Nat.le_refl _)

theorem findClose_no_newline :
    ∀ (l n rest : List Char), findClose l = some (n, rest) → ∀ c ∈ n, c ≠ '\n' := by
  intro l
  induction l with
  | nil => intro n rest h; simp [findClose] at h
  | cons c1 t ihl =>
    cases t with
    | nil => intro n rest h; simp [findClose] at h
    | cons c2 rest0 =>
      intro n rest h
      simp only [findClose] at h
      by_cases h12 : c1 = '%' ∧ c2 = '%'
      · rw [if_pos h12] at h
        cases h
        intro c hc
        exact absurd hc (by simp)
      · rw [if_neg h12] at h
        by_cases hnl : c1 = '\n'
        · rw [if_pos hnl] at h
          exact absurd h (by simp)
        · rw [if_neg hnl] at h
          cases hrec : findClose (c2 :: rest0) with
          | none => rw [hrec] at h; exact absurd h (by simp)
          | some p =>
            rw [hrec] at h
            obtain ⟨n0, r0⟩ := p
            simp only [Option.map, Option.some.injEq, Prod.mk.injEq] at h
            obtain ⟨h1, h2⟩ := h
            subst h1
            intro c hc
            rcases List.mem_cons.mp hc with hc1 | hc1
            · subst hc1; exact hnl
            · exact ihl n0 r0 hrec c hc1

theorem pyFindAll_no_newline :
    ∀ l : List Char, ∀ n ∈ pyFindAll l, ∀ c ∈ n, c ≠ '\n' := by
  have H : ∀ (k : Nat) (l : List Char), l.length ≤ k →
      ∀ n ∈ pyFindAll l, ∀ c ∈ n, c ≠ '\n' := by
    intro k
    induction k with
    | zero =>
      intro l h
      have : l = [] := List.eq_nil_of_length_eq_zero (Nat.le_zero.mp h)
      subst this
      simp [pyFindAll_nil]
    | succ m ih =>
      intro l h n hn
      match l with
      | [] => exact absurd hn (by simp [pyFindAll_nil])
      | [c] => exact absurd hn (by simp [pyFindAll_single])
      | c1 :: c2 :: rest =>
        simp only [List.length_cons] at h
        rw [pyFindAll_cons2] at hn
        by_cases h12 : c1 = '%' ∧ c2 = '%'
        · rw [if_pos h12] at hn
          cases hrec : findClose rest with
          | none =>
            rw [hrec] at hn
            exact ih (c2 :: rest) (by simp; omega) n hn
          | some p =>
            rw [hrec] at hn
            obtain ⟨name, rest1⟩ := p
            simp only [List.mem_cons] at hn
            rcases hn with hn | hn
            · subst hn
              exact findClose_no_newline rest n rest1 hrec
            · have hlen := findClose_length rest name rest1 hrec
              exact ih rest1 (by omega) n hn
        · rw [if_neg h12] at hn
          exact ih (c2 :: rest) (by simp; omega) n hn
  intro l
  exact H l.length l (Nat.le_refl _)

/-- Modelled from the spec's wording of the `render()` contract, for
comparison with the code's `normalizeResult`: "(1) splitting the current
text into lines, (2) stripping trailing whitespace from every line (no
leading-whitespace stripping), (3) rejoining with a single newline
separator, (4) stripping trailing whitespace/newlines from the entire
result". -/
def specRender (t : String) : String :=
  let lines := pySplitlines t.data
  let stripped := lines.map rstripChars
  let joined := joinWith ['\n'] stripped
  String.mk (rstripChars joined)

theorem normalizeResult_eq_specRender (t : String) : normalizeResult t = specRender t := rfl

theorem ensureLoaded_of_some (store : Store) (l : License) (t : String)
    (h : l.template = some t) :
    License.ensureLoaded store l = Except.ok (t, l) := by
  simp [License.ensureLoaded, h]

theorem ensureLoaded_ok_state (store : Store) (l : License) (t : String) (l1 : License)
    (h : License.ensureLoaded store l = Except.ok (t, l1)) :
    l1.template = some t ∧ l1.spdx = l.spdx ∧
      ((l.template = some t ∧ l1 = l ∧ l1.loads = l.loads) ∨
       (l.template = none ∧ l1.loads = l.loads + 1)) := by
  obtain ⟨s0, tm, k⟩ := l
  cases tm with
  | some t0 =>
    simp only [License.ensureLoaded] at h
    simp only [Except.ok.injEq, Prod.mk.injEq] at h
    obtain ⟨h1, h2⟩ := h
    subst h1
    subst h2
    exact ⟨rfl, rfl, Or.inl ⟨rfl, rfl, rfl⟩⟩
  | none =>
    simp only [License.ensureLoaded] at h
    cases hr : readTemplate store s0 with
    | error e => rw [hr] at h; exact absurd h (by simp)
    | ok t0 =>
      rw [hr] at h
      simp only [Except.ok.injEq, Prod.mk.injEq] at h
      obtain ⟨h1, h2⟩ := h
      subst h1
      subst h2
      exact ⟨rfl, rfl, Or.inr ⟨rfl, rfl⟩⟩

/-- The four public operations of a loaded-or-unloaded `License` instance,
as named by the spec: `read()`, `apply_variable(name, value)`,
`extract_variables()`, `render()`. -/
inductive Op where
  | read : Op
  | applyVar (n v : String) : Op
  | extract : Op
  | render : Op

/-- Run one operation, keeping only the state (the returned value is
irrelevant to the load-counting claim). -/
def runOp (store : Store) (l : License) : Op → Except String License
  | Op.read =>
    match License.read store l with
    | Except.error e => Except.error e
    | Except.ok p => Except.ok p.2
  | Op.applyVar n v => License.applyVariable store l n v
  | Op.extract =>
    match License.extractTemplate store l with
    | Except.error e => Except.error e
    | Except.ok p => Except.ok p.2
  | Op.render =>
    match License.getResult store l with
    | Except.error e => Except.error e
    | Except.ok p => Except.ok p.2

/-- Run a sequence of operations left to right, stopping at the first
error. -/
def runOps (store : Store) : List Op → License → Except String License
  | [], l => Except.ok l
  | op :: ops, l =>
    match runOp store l op with
    | Except.error e => Except.error e
    | Except.ok l1 => runOps store ops l1

theorem runOp_state (store : Store) (l : License) (op : Op) (l1 : License)
    (hr : runOp store l op = Except.ok l1) :
    ∃ t l2, License.ensureLoaded store l = Except.ok (t, l2) ∧
      l1.spdx = l2.spdx ∧ l1.loads = l2.loads ∧ l1.template.isSome := by
  cases op with
  | read =>
    simp only [runOp, License.read] at hr
    cases hE : License.ensureLoaded store l with
    | error e => rw [hE] at hr; exact absurd hr (by simp)
    | ok p =>
      obtain ⟨t, l2⟩ := p
      rw [hE] at hr
      simp only [Except.ok.injEq] at hr
      subst hr
      have := ensureLoaded_ok_state store l t l2 hE
      exact ⟨t, l2, rfl, rfl, rfl, by simp [this.1]⟩
  | applyVar n v =>
    simp only [runOp, License.applyVariable] at hr
    cases hE : License.ensureLoaded store l with
    | error e => rw [hE] at hr; exact absurd hr (by simp)
    | ok p =>
      obtain ⟨t, l2⟩ := p
      rw [hE] at hr
      simp only [Except.ok.injEq] at hr
      subst hr
      exact ⟨t, l2, rfl, rfl, rfl, by simp⟩
  | extract =>
    simp only [runOp, License.extractTemplate, License.read] at hr
    cases hE : License.ensureLoaded store l with
    | error e => rw [hE] at hr; exact absurd hr (by simp)
    | ok p =>
      obtain ⟨t, l2⟩ := p
      rw [hE] at hr
      simp only [Except.ok.injEq] at hr
      subst hr
      have := ensureLoaded_ok_state store l t l2 hE
      exact ⟨t, l2, rfl, rfl, rfl, by simp [this.1]⟩
  | render =>
    simp only [runOp, License.getResult] at hr
    cases hE : License.ensureLoaded store l with
    | error e => rw [hE] at hr; exact absurd hr (by simp)
    | ok p =>
      obtain ⟨t, l2⟩ := p
      rw [hE] at hr
      simp only [Except.ok.injEq] at hr
      subst hr
      have := ensureLoaded_ok_state store l t l2 hE
      exact ⟨t, l2, rfl, rfl, rfl, by simp [this.1]⟩

theorem runOp_loads_of_some (store : Store) (l : License) (op : Op) (l1 : License)
    (hsome : l.template.isSome) (hr : runOp store l op = Except.ok l1) :
    l1.loads = l.loads ∧ l1.template.isSome := by
  obtain ⟨t0, ht0⟩ := Option.isSome_iff_exists.mp hsome
  obtain ⟨t, l2, hE, _, hloads, hsome1⟩ := runOp_state store l op l1 hr
  rw [ensureLoaded_of_some store l t0 ht0] at hE
  simp only [Except.ok.injEq, Prod.mk.injEq] at hE
  obtain ⟨h1, h2⟩ := hE
  subst h1
  subst h2
  exact ⟨hloads, hsome1⟩

theorem runOp_loads_of_none (store : Store) (l : License) (op : Op) (l1 : License)
    (hnone : l.template = none) (hr : runOp store l op = Except.ok l1) :
    l1.loads = l.loads + 1 ∧ l1.template.isSome := by
  obtain ⟨t, l2, hE, _, hloads, hsome1⟩ := runOp_state store l op l1 hr
  have := ensureLoaded_ok_state store l t l2 hE
  rcases this.2.2 with ⟨h1, _, _⟩ | ⟨_, h2⟩
  · rw [hnone] at h1; exact absurd h1 (by simp)
  · exact ⟨by rw [hloads, h2], hsome1⟩

theorem runOps_loads_of_some (store : Store) :
    ∀ (ops : List Op) (l l1 : License), l.template.isSome →
      runOps store ops l = Except.ok l1 → l1.loads = l.loads ∧ l1.template.isSome := by
  intro ops
  induction ops with
  | nil =>
    intro l l1 hsome h
    simp only [runOps, Except.ok.injEq] at h
    subst h
    exact ⟨rfl, hsome⟩
  | cons op ops ih =>
    intro l l1 hsome h
    simp only [runOps] at h
    cases hr : runOp store l op with
    | error e => rw [hr] at h; exact absurd h (by simp)
    | ok l2 =>
      rw [hr] at h
      have step := runOp_loads_of_some store l op l2 hsome hr
      have rest := ih l2 l1 step.2 h
      exact ⟨by rw [rest.1, step.1], rest.2⟩

/-- A concrete two-entry store whose glob enumeration order is not
lexicographically sorted (`pathlib.Path.glob` yields entries in arbitrary
filesystem order; nothing in the code sorts `ALL_LICENSES`). -/
def storeBA : Store := [("b", "B text"), ("a", "A text")]

/-- A concrete one-entry store for witnesses. -/
def storeMIT : Store :=
  [("MIT", "Copyright (c) %%YEAR%% %%AUTHOR%%\n\nPermission is hereby granted.")]

theorem marker_data (name : String) :
    (marker name).data = '%' :: '%' :: (name.data ++ ['%', '%']) := rfl

theorem marker_data_ne_nil (name : String) : (marker name).data ≠ [] := by
  rw [marker_data]
  simp

example : occursIn "abc" "b" := by decide
example : ¬ occursIn "abc" "x" := by decide

/-- C1: the claim says License construction itself validates the identifier
and fails with an error on unknown identifiers, with no downstream
re-validation. In the code `License.__init__` performs no check at all:
constructing with an identifier absent from the store succeeds and yields
an ordinary instance, and the membership check that eventually rejects the
identifier happens downstream, in `read_template`, when the template is
first loaded. -/
theorem c1_init_does_not_validate :
    License.init "bogus" = { spdx := "bogus", template := none, loads := 0 }
    ∧ "bogus" ∉ allLicenses storeMIT
    ∧ License.read storeMIT (License.init "bogus") =
        Except.error "License template 'bogus' not found." := by
  refine ⟨rfl, by decide, by decide⟩

/-- C1 (amended): `License.__init__` accepts any string without validation;
the validation gate is the CLI's `LicenseParameter.convert`, which succeeds
with `License(value)` exactly for identifiers in `ALL_LICENSES` and
otherwise fails with a usage error naming the invalid value; moreover
`read_template` re-checks membership when the template is loaded. -/
theorem c1_validation_in_convert (store : Store) (v : String) :
    License.init v = { spdx := v, template := none, loads := 0 }
    ∧ (v ∈ allLicenses store →
        convert store (ConvertInput.str v) = Except.ok (License.init v))
    ∧ (v ∉ allLicenses store →
        convert store (ConvertInput.str v) =
          Except.error ("Invalid license: " ++ v ++ ". Available licenses: " ++
            joinComma (allLicenses store))
        ∧ readTemplate store v =
            Except.error ("License template '" ++ v ++ "' not found.")) := by
  refine ⟨rfl, ?_, ?_⟩
  · intro h
    simp only [convert]
    rw [if_neg (by simpa using h)]
  · intro h
    constructor
    · simp only [convert]
      rw [if_pos h]
    · simp only [readTemplate]
      rw [(storeLookup_eq_none_iff store v).mpr h]

theorem c1_validation_in_convert_witness :
    convert storeMIT (ConvertInput.str "MIT") = Except.ok (License.init "MIT")
    ∧ readTemplate storeMIT "GPL" =
        Except.error ("License template '" ++ "GPL" ++ "' not found.") :=
  ⟨(c1_validation_in_convert storeMIT "MIT").2.1 (by decide),
   ((c1_validation_in_convert storeMIT "GPL").2.2 (by decide)).2⟩

/-- C2: `render()` implements exactly the spec's normalization pipeline
(split into lines, strip trailing whitespace of each line keeping leading
indentation, rejoin with a single newline, strip the trailing whitespace
and newlines of the whole), and on the template
`"  Copyright %%YEAR%%   \n\n\n"` with `YEAR` set to `"2025"` it returns
exactly `"  Copyright 2025"`. -/
theorem c2_render_normalization :
    (∀ (store : Store) (l : License) (t : String), l.template = some t →
      License.getResult store l = Except.ok (specRender t, l))
    ∧ License.applyVariable storeMIT
        { spdx := "MIT", template := some "  Copyright %%YEAR%%   \n\n\n", loads := 0 }
        "YEAR" "2025"
        = Except.ok
            { spdx := "MIT", template := some "  Copyright 2025   \n\n\n", loads := 0 }
    ∧ specRender "  Copyright 2025   \n\n\n" = "  Copyright 2025" := by
  refine ⟨?_, by decide, by decide⟩
  intro store l t h
  simp only [License.getResult]
  rw [ensureLoaded_of_some store l t h]
  rfl

theorem c2_render_normalization_witness :
    License.getResult storeMIT { spdx := "x", template := some "  hi   ", loads := 0 }
      = Except.ok (specRender "  hi   ",
          { spdx := "x", template := some "  hi   ", loads := 0 }) :=
  (c2_render_normalization).1 storeMIT
    { spdx := "x", template := some "  hi   ", loads := 0 } "  hi   " rfl

/-- C3: `apply_variable` on a loaded instance replaces, by plain substring
substitution, every non-overlapping occurrence of `%%name%%` with `value`
(equivalently: it joins the `%%name%%`-split fragments with `value`, so
markers inside `value` are not rescanned by that call), and when `%%name%%`
does not occur in the text the call is a silent no-op returning the
instance unchanged. -/
theorem c3_apply_variable_semantics (store : Store) (l : License)
    (t name value : String) (h : l.template = some t) :
    License.applyVariable store l name value =
      Except.ok
        { spdx := l.spdx, loads := l.loads,
          template := some (String.mk (replaceChars (marker name).data value.data t.data)) }
    ∧ String.mk (replaceChars (marker name).data value.data t.data) =
        String.mk (joinWith value.data (splitChars (marker name).data t.data))
    ∧ (¬ occursIn t (marker name) →
        License.applyVariable store l name value = Except.ok l) := by
  refine ⟨?_, ?_, ?_⟩
  · simp only [License.applyVariable]
    rw [ensureLoaded_of_some store l t h]
    rfl
  · exact congrArg String.mk
      (replaceChars_eq_joinWith_splitChars (marker name).data value.data
        (marker_data_ne_nil name) t.data)
  · intro hocc
    obtain ⟨s0, tm, k⟩ := l
    simp only at h
    subst h
    simp only [License.applyVariable, License.ensureLoaded]
    have hrep : replaceChars ("%%" ++ name ++ "%%").data value.data t.data = t.data :=
      replaceChars_no_occurrence (marker name).data value.data
        (marker_data_ne_nil name) t.data hocc
    rw [hrep]

theorem c3_apply_variable_semantics_witness :
    License.applyVariable storeMIT
      { spdx := "x", template := some "a %%Y%% b %%Y%%", loads := 0 } "Y" "1"
      = Except.ok
          { spdx := "x", loads := 0,
            template := some (String.mk (replaceChars (marker "Y").data "1".data
                              "a %%Y%% b %%Y%%".data)) }
    ∧ License.applyVariable storeMIT
        { spdx := "x", template := some "hello", loads := 0 } "Y" "1"
        = Except.ok { spdx := "x", template := some "hello", loads := 0 } :=
  ⟨(c3_apply_variable_semantics storeMIT
      { spdx := "x", template := some "a %%Y%% b %%Y%%", loads := 0 }
      "a %%Y%% b %%Y%%" "Y" "1" rfl).1,
   (c3_apply_variable_semantics storeMIT
      { spdx := "x", template := some "hello", loads := 0 }
      "hello" "Y" "1" rfl).2.2 (by decide)⟩

/-- C6: the claim says the construction-time error carries the full
lexicographically sorted set of valid identifiers. The code joins
`ALL_LICENSES` in store (glob) order without sorting: for a store
enumerated as `b, a` the message shows `b, a`, not the sorted `a, b`. -/
theorem c6_error_list_not_sorted :
    convert storeBA (ConvertInput.str "z") =
      Except.error "Invalid license: z. Available licenses: b, a"
    ∧ allLicenses storeBA = ["b", "a"]
    ∧ sortStrings (allLicenses storeBA) = ["a", "b"]
    ∧ allLicenses storeBA ≠ sortStrings (allLicenses storeBA) := by
  refine ⟨by decide, by decide, by decide, by decide⟩

/-- C6 (amended): the error carries the invalid value and the full set of
valid identifiers, joined in the Template Store's enumeration (glob) order,
which is not sorted by the code. -/
theorem c6_error_carries_unsorted_set (store : Store) (v : String)
    (h : v ∉ allLicenses store) :
    convert store (ConvertInput.str v) =
      Except.error ("Invalid license: " ++ v ++ ". Available licenses: " ++
        joinComma (allLicenses store)) := by
  simp only [convert]
  rw [if_pos h]

theorem c6_error_carries_unsorted_set_witness :
    convert storeBA (ConvertInput.str "z") =
      Except.error ("Invalid license: " ++ "z" ++ ". Available licenses: " ++
        joinComma (allLicenses storeBA)) :=
  c6_error_carries_unsorted_set storeBA "z" (by decide)

/-- C10: substituted values are not insulated from later substitutions:
whenever the text contains `%%a%%` and the value contains `%%b%%`, the text
after `apply_variable(a, v)` contains `%%b%%`; and concretely, applying
`A := "%%B%%"` and then `B := "Z"` to `"X %%A%% Y"` yields `"X Z Y"` — the
marker introduced by the first call is replaced by the second. -/
theorem c10_values_not_insulated :
    (∀ (t v a b : String), occursIn t (marker a) → occursIn v (marker b) →
      occursIn (String.mk (replaceChars (marker a).data v.data t.data)) (marker b))
    ∧ License.applyVariable storeMIT
        { spdx := "x", template := some "X %%A%% Y", loads := 0 } "A" "%%B%%"
        = Except.ok { spdx := "x", template := some "X %%B%% Y", loads := 0 }
    ∧ License.applyVariable storeMIT
        { spdx := "x", template := some "X %%B%% Y", loads := 0 } "B" "Z"
        = Except.ok { spdx := "x", template := some "X Z Y", loads := 0 } := by
  refine ⟨?_, by decide, by decide⟩
  intro t v a b hta hvb
  have h1 : v.data <:+: replaceChars (marker a).data v.data t.data :=
    infix_val_replaceChars (marker a).data v.data (marker_data_ne_nil a) t.data hta
  exact List.IsInfix.trans hvb h1

theorem c10_values_not_insulated_witness :
    occursIn (String.mk (replaceChars (marker "A").data "%%B%%".data "X %%A%% Y".data))
      (marker "B") :=
  (c10_values_not_insulated).1 "X %%A%% Y" "%%B%%" "A" "B" (by decide) (by decide)

theorem extractVars_sorted (t : String) :
    List.Sorted (fun a b : String => a ≤ b) (extractVars t) := by
  simp only [extractVars]
  by_cases hm : pyFindAll t.data = []
  · rw [if_pos hm]; exact List.sorted_nil
  · rw [if_neg hm]; exact sortStrings_sorted _

theorem extractVars_nodup (t : String) : (extractVars t).Nodup := by
  simp only [extractVars]
  by_cases hm : pyFindAll t.data = []
  · rw [if_pos hm]; exact List.nodup_nil
  · rw [if_neg hm]
    exact ((sortStrings_perm _).nodup_iff).mpr (buildVars_nodup _ [] List.nodup_nil)

theorem extractVars_eq_nil_of_no_pp (t : String) (h : ¬ occursIn t "%%") :
    extractVars t = [] := by
  have hm : pyFindAll t.data = [] := pyFindAll_eq_nil_of_no_pp t.data h
  simp only [extractVars]
  rw [if_pos hm]

theorem extract_names_stripped (t : String) (v : String) (hv : v ∈ extractVars t) :
    v ≠ "" ∧ pyStrip v = v := by
  simp only [extractVars] at hv
  by_cases hm : pyFindAll t.data = []
  · rw [if_pos hm] at hv; exact absurd hv (by simp)
  · rw [if_neg hm, mem_sortStrings, mem_buildVars] at hv
    rcases hv with hv | ⟨m, hm1, hveq, hvne⟩
    · exact absurd hv (by simp)
    · subst hveq
      refine ⟨hvne, ?_⟩
      show String.mk (stripChars (stripChars m)) = String.mk (stripChars m)
      rw [stripChars_idem]

theorem extract_reports_stripped (t : String) (m : List Char)
    (hm : m ∈ pyFindAll t.data) (hne : stripChars m ≠ []) :
    String.mk (stripChars m) ∈ extractVars t := by
  have hmat : pyFindAll t.data ≠ [] := by
    intro h0
    rw [h0] at hm
    exact absurd hm (by simp)
  simp only [extractVars]
  rw [if_neg hmat, mem_sortStrings, mem_buildVars]
  right
  refine ⟨m, hm, rfl, ?_⟩
  intro hcon
  exact hne (congrArg String.data hcon)

/-- C4: `extract_variables()` returns a deduplicated, lexicographically
sorted sequence (not first-appearance order); a second call on the
resulting (unmutated) instance returns the identical sequence and state;
and a template containing no `%%` at all yields the empty sequence. -/
theorem c4_extract_sorted_dedup (store : Store) (l : License) (vs : List String)
    (l1 : License) (hr : License.extractTemplate store l = Except.ok (vs, l1)) :
    List.Sorted (fun a b : String => a ≤ b) vs ∧ vs.Nodup
    ∧ License.extractTemplate store l1 = Except.ok (vs, l1)
    ∧ (∀ t, l1.template = some t → ¬ occursIn t "%%" → vs = []) := by
  simp only [License.extractTemplate, License.read] at hr
  cases hE : License.ensureLoaded store l with
  | error e => rw [hE] at hr; exact absurd hr (by simp)
  | ok p =>
    obtain ⟨t, l2⟩ := p
    rw [hE] at hr
    simp only [Except.ok.injEq, Prod.mk.injEq] at hr
    obtain ⟨hvs, hl⟩ := hr
    subst hvs
    subst hl
    have hstate := ensureLoaded_ok_state store l t l2 hE
    refine ⟨extractVars_sorted t, extractVars_nodup t, ?_, ?_⟩
    · simp only [License.extractTemplate, License.read]
      rw [ensureLoaded_of_some store l2 t hstate.1]
    · intro t0 h0 hocc
      rw [hstate.1] at h0
      have ht : t0 = t := by
        simpa using h0.symm
      subst ht
      exact extractVars_eq_nil_of_no_pp t0 hocc

theorem c4_extract_sorted_dedup_witness :
    List.Sorted (fun a b : String => a ≤ b) ["AUTHOR", "YEAR"]
    ∧ (["AUTHOR", "YEAR"] : List String).Nodup :=
  ⟨(c4_extract_sorted_dedup storeMIT (License.init "MIT") ["AUTHOR", "YEAR"]
      { spdx := "MIT",
        template := some "Copyright (c) %%YEAR%% %%AUTHOR%%\n\nPermission is hereby granted.",
        loads := 1 } (by decide)).1,
   (c4_extract_sorted_dedup storeMIT (License.init "MIT") ["AUTHOR", "YEAR"]
      { spdx := "MIT",
        template := some "Copyright (c) %%YEAR%% %%AUTHOR%%\n\nPermission is hereby granted.",
        loads := 1 } (by decide)).2.1⟩

/-- C5: for any nonempty sequence of `read` / `apply_variable` /
`extract_variables` / `render` calls run on a freshly constructed instance,
the backing store load (`read_template`) is invoked exactly once: the
instrumentation counter of the final state is 1 no matter how many
operations ran. -/
theorem c5_store_loaded_once (store : Store) (spdx : String) (op : Op)
    (ops : List Op) (l1 : License)
    (h : runOps store (op :: ops) (License.init spdx) = Except.ok l1) :
    l1.loads = 1 := by
  simp only [runOps] at h
  cases hr : runOp store (License.init spdx) op with
  | error e => rw [hr] at h; exact absurd h (by simp)
  | ok l2 =>
    rw [hr] at h
    have step := runOp_loads_of_none store (License.init spdx) op l2 rfl hr
    have rest := runOps_loads_of_some store ops l2 l1 step.2 h
    rw [rest.1, step.1]
    rfl

theorem c5_store_loaded_once_witness :
    License.loads
      { spdx := "MIT",
        template := some "Copyright (c) %%YEAR%% %%AUTHOR%%\n\nPermission is hereby granted.",
        loads := 1 } = 1 :=
  c5_store_loaded_once storeMIT "MIT" Op.read
    [Op.extract, Op.render, Op.read, Op.render]
    { spdx := "MIT",
      template := some "Copyright (c) %%YEAR%% %%AUTHOR%%\n\nPermission is hereby granted.",
      loads := 1 } (by decide)

/-- C8: `render()` is repeatable: a successful call returns a result and a
state from which calling `render()` again returns exactly the same result
and state; the identifier is unchanged, and if the template was already
loaded the whole state is exactly unchanged (the only possible state change
is the one-time lazy load). -/
theorem c8_render_stateless (store : Store) (l : License) (s : String)
    (l1 : License) (h : License.getResult store l = Except.ok (s, l1)) :
    License.getResult store l1 = Except.ok (s, l1)
    ∧ l1.spdx = l.spdx
    ∧ (∀ t, l.template = some t → l1 = l) := by
  simp only [License.getResult] at h
  cases hE : License.ensureLoaded store l with
  | error e => rw [hE] at h; exact absurd h (by simp)
  | ok p =>
    obtain ⟨t, l2⟩ := p
    rw [hE] at h
    simp only [Except.ok.injEq, Prod.mk.injEq] at h
    obtain ⟨hs, hl⟩ := h
    subst hs
    subst hl
    have hstate := ensureLoaded_ok_state store l t l2 hE
    refine ⟨?_, hstate.2.1, ?_⟩
    · simp only [License.getResult]
      rw [ensureLoaded_of_some store l2 t hstate.1]
    · intro t0 h0
      rw [ensureLoaded_of_some store l t0 h0] at hE
      simp only [Except.ok.injEq, Prod.mk.injEq] at hE
      exact hE.2.symm

theorem c8_render_stateless_witness :
    License.getResult storeMIT { spdx := "x", template := some "  hi   ", loads := 0 }
      = Except.ok ("  hi", { spdx := "x", template := some "  hi   ", loads := 0 }) :=
  (c8_render_stateless storeMIT { spdx := "x", template := some "  hi   ", loads := 0 }
    "  hi" { spdx := "x", template := some "  hi   ", loads := 0 } (by decide)).1

/-- C7: the claim says marker names may contain any character except the
delimiter sequence, including newlines. The regex `%%(.*?)%%` is matched
without `re.DOTALL`, so `.` never matches a newline: the template
`"%%A\nB%%"`, which is exactly one marker whose name contains a newline,
yields no matches and `extract_variables()` returns `[]` instead of
reporting the name. -/
theorem c7_newline_marker_not_found :
    ("%%A\nB%%" : String) = "%%" ++ "A\nB" ++ "%%"
    ∧ ¬ occursIn "A\nB" "%%"
    ∧ pyFindAll "%%A\nB%%".data = []
    ∧ extractVars "%%A\nB%%" = [] := by
  refine ⟨by decide, by decide, by decide, by decide⟩

/-- C7 (amended): the scan finds markers left to right, non-greedily, and a
captured name can never span a newline; on any template made of percent-free
literal segments interleaved with markers `%%name%%` whose names are
percent-free and newline-free, the scan finds exactly the markers in order,
and `extract_variables()` reports the whitespace-stripped form of every such
name that does not strip to nothing. -/
theorem c7_scan_completeness :
    (∀ (t : String) (ns : List (List Char)), MarkerForm t.data ns →
      pyFindAll t.data = ns)
    ∧ (∀ (t : String) (n : List Char), n ∈ pyFindAll t.data → ∀ c ∈ n, c ≠ '\n')
    ∧ (∀ (t : String) (ns : List (List Char)), MarkerForm t.data ns →
        ∀ n ∈ ns, stripChars n ≠ [] → String.mk (stripChars n) ∈ extractVars t) := by
  refine ⟨?_, ?_, ?_⟩
  · intro t ns h
    exact pyFindAll_of_markerForm t.data ns h
  · intro t n hn
    exact pyFindAll_no_newline t.data n hn
  · intro t ns h n hn hne
    apply extract_reports_stripped t n ?_ hne
    rw [pyFindAll_of_markerForm t.data ns h]
    exact hn

theorem c7_scan_completeness_witness :
    String.mk (stripChars "YEAR".data) ∈ extractVars "Hi %%YEAR%% there" := by
  have hMF : MarkerForm "Hi %%YEAR%% there".data ["YEAR".data] := by
    have he : "Hi %%YEAR%% there".data =
        "Hi ".data ++ '%' :: '%' :: ("YEAR".data ++ '%' :: '%' :: " there".data) := by
      decide
    rw [he]
    exact MarkerForm.seg "Hi ".data "YEAR".data " there".data [] (by decide) (by decide)
      (MarkerForm.lit " there".data (by decide))
  exact (c7_scan_completeness).2.2 "Hi %%YEAR%% there" ["YEAR".data] hMF
    "YEAR".data (by decide) (by decide)

/-- C9: every name returned by `extract_variables()` is nonempty and equal
to its own whitespace-stripped form (names are reported stripped); every
matched raw name whose stripped form is nonempty is reported in stripped
form; concretely, `"Copyright %% YEAR %%"` reports `["YEAR"]`, yet
`apply_variable("YEAR", "2025")` leaves the padded marker `%% YEAR %%`
untouched, because the exact substring `%%YEAR%%` does not occur. -/
theorem c9_stripped_names_not_substitutable :
    (∀ (t : String) (v : String), v ∈ extractVars t → v ≠ "" ∧ pyStrip v = v)
    ∧ (∀ (t : String) (m : List Char), m ∈ pyFindAll t.data →
        stripChars m ≠ [] → String.mk (stripChars m) ∈ extractVars t)
    ∧ extractVars "Copyright %% YEAR %%" = ["YEAR"]
    ∧ License.applyVariable storeMIT
        { spdx := "x", template := some "Copyright %% YEAR %%", loads := 0 } "YEAR" "2025"
        = Except.ok { spdx := "x", template := some "Copyright %% YEAR %%", loads := 0 } := by
  refine ⟨?_, ?_, by decide, by decide⟩
  · intro t v hv
    exact extract_names_stripped t v hv
  · intro t m hm hne
    exact extract_reports_stripped t m hm hne

theorem c9_stripped_names_not_substitutable_witness :
    ("YEAR" : String) ≠ "" ∧ pyStrip "YEAR" = "YEAR" :=
  (c9_stripped_names_not_substitutable).1 "Copyright %% YEAR %%" "YEAR" (by decide)

end Relicense
